import Mathlib

/-!
Shallow embedding of the typing-session input engine of the Tollow
repository (`src/components/TypingPractice.tsx`).

The reference text (`textContent.content`) is modelled as a `List Char`;
iterating a JS string with `for (const ch of text)` visits unicode code
points, which `Char` models directly.  The component state handled by the
React hooks is collected in `EngineState`:

* `currentPosition` — the `currentPosition` state (the cursor);
* `typedMap`        — the `typedMap` state, a JS `Map<number, string>`;
* `isStarted` / `startTime` — the session clock;
* `isComposing` / `compositionBuffer` — `isComposingRef` and
  `compositionBufferRef`.

A JS `Map` is an insertion-ordered collection with unique keys:
`set` overwrites in place when the key is present and appends otherwise,
`delete` removes the entry with the key, and `size` is the number of
entries.  It is modelled by `TMap`, an association list on which all
operations of the component are defined below.  Wall-clock reads
(`Date.now()`) are passed in as explicit `now : Nat` arguments.
-/

set_option autoImplicit false

namespace Tollow

/-- Model of the JS `Map<number, string>` held in the `typedMap` state:
an insertion-ordered association list whose keys are kept unique by the
operations below. -/
abbrev TMap := List (Nat × Char)

namespace TMap

/-- `Map.prototype.set`: overwrite the entry in place when the key is
present, append a fresh entry otherwise. -/
def set : TMap → Nat → Char → TMap
  | [], k, v => [(k, v)]
  | q :: rest, k, v => if q.1 = k then (k, v) :: rest else q :: set rest k v

/-- `Map.prototype.delete`: drop the entry carrying the key (keys are
unique, so dropping the first occurrence is dropping the entry). -/
def del : TMap → Nat → TMap
  | [], _ => []
  | q :: rest, k => if q.1 = k then rest else q :: del rest k

/-- `Map.prototype.get` / `Map.prototype.has`, as an `Option`. -/
def lookup : TMap → Nat → Option Char
  | [], _ => none
  | q :: rest, k => if q.1 = k then some q.2 else lookup rest k

end TMap

/-- The engine state held by the component (`useState` hooks plus the two
composition refs).  The derived display values `wpm`, `accuracy` and
`errors` are recomputed from this state and are modelled by the snapshot
functions further down. -/
structure EngineState where
  currentPosition : Nat
  typedMap : TMap
  isStarted : Bool
  startTime : Nat
  isComposing : Bool
  compositionBuffer : String
  deriving Repr, DecidableEq

/-- The initial component state: cursor 0, empty map, session not
started, no open composition. -/
def init : EngineState := ⟨0, [], false, 0, false, ""⟩

/-- The `for (const rawCh of text)` loop of `processInput`: at each
character, break when the cursor has reached the end of the reference,
turn `'\r'` into the empty string and skip it, skip a space/newline/tab
that does not equal the reference character at the cursor, and otherwise
record the character and advance the cursor. -/
def commitLoop (content : List Char) : List Char → Nat → TMap → Nat × TMap
  | [], pos, m => (pos, m)
  | rawCh :: rest, pos, m =>
    if content.length ≤ pos then (pos, m)
    else if rawCh = '\r' then commitLoop content rest pos m
    else if (rawCh = ' ' ∨ rawCh = '\n' ∨ rawCh = '\t') ∧ content[pos]? ≠ some rawCh then
      commitLoop content rest pos m
    else commitLoop content rest (pos + 1) (TMap.set m pos rawCh)

/-- `processInput(text)`: return on empty text; otherwise mark the
session started (recording `Date.now()` as the start time if it was not
already started), then run the per-character commit loop from the current
cursor over a copy of the map, and store the resulting cursor and map. -/
def processInput (content : List Char) (now : Nat) (text : List Char)
    (s : EngineState) : EngineState :=
  if text = [] then s
  else
    let s1 := if s.isStarted then s
              else { s with isStarted := true, startTime := now }
    let r := commitLoop content text s1.currentPosition s1.typedMap
    { s1 with currentPosition := r.1, typedMap := r.2 }

/-- The keys handled by `handleKeyDown`; `other` stands for any key the
handler does not treat specially. -/
inductive Key where
  | backspace
  | del
  | arrowLeft
  | arrowRight
  | home
  | endKey
  | other
  deriving Repr, DecidableEq

/-- `handleKeyDown`: while a composition is open no key changes the
engine state (Backspace returns to let the browser edit the composition
text; every other key is prevented).  Otherwise Backspace decrements the
cursor and deletes the map entry at the new position (no-op at 0),
Delete removes the entry under the cursor (no-op at the end), the arrow
keys step the cursor within bounds, and Home/End seek to 0 / the text
length. -/
def handleKeyDown (content : List Char) (k : Key) (s : EngineState) : EngineState :=
  if s.isComposing then s
  else
    match k with
    | .backspace =>
        if 0 < s.currentPosition then
          let np := s.currentPosition - 1
          { s with currentPosition := np, typedMap := TMap.del s.typedMap np }
        else s
    | .del =>
        if s.currentPosition < content.length then
          { s with typedMap := TMap.del s.typedMap s.currentPosition }
        else s
    | .arrowLeft =>
        if 0 < s.currentPosition then { s with currentPosition := s.currentPosition - 1 }
        else s
    | .arrowRight =>
        if s.currentPosition < content.length then
          { s with currentPosition := s.currentPosition + 1 }
        else s
    | .home => { s with currentPosition := 0 }
    | .endKey => { s with currentPosition := content.length }
    | .other => s

/-- The code points removed by ECMAScript `String.prototype.trim`:
WhiteSpace (TAB, VT, FF, SP, NBSP, ZWNBSP and every Space_Separator
code point: U+1680, U+2000..U+200A, U+202F, U+205F, U+3000) together
with the LineTerminator code points (LF, CR, LS U+2028, PS U+2029). -/
def isTrimWhite (c : Char) : Bool :=
  c = '\t' ∨ c = '\n' ∨ c = '\x0b' ∨ c = '\x0c' ∨ c = '\r' ∨ c = ' ' ∨
    c = '\u00A0' ∨ c = '\u1680' ∨
    ('\u2000' ≤ c ∧ c ≤ '\u200A') ∨
    c = '\u2028' ∨ c = '\u2029' ∨ c = '\u202F' ∨ c = '\u205F' ∨
    c = '\u3000' ∨ c = '\uFEFF'

/-- JS `String.prototype.trim`: drop trim-whitespace from both ends. -/
def jsTrim (l : List Char) : List Char :=
  ((l.dropWhile isTrimWhite).reverse.dropWhile isTrimWhite).reverse

/-- `handleCompositionStart`: mark the composition open and clear the
buffer. -/
def handleCompositionStart (s : EngineState) : EngineState :=
  { s with isComposing := true, compositionBuffer := "" }

/-- `handleCompositionUpdate`: store the in-progress data in the
buffer. -/
def handleCompositionUpdate (data : String) (s : EngineState) : EngineState :=
  { s with compositionBuffer := data }

/-- `handleCompositionEnd`: close the composition; when `e.data` is
nonempty and does not trim to the empty string, feed it to
`processInput` (scheduled by a `setTimeout`, which in the single-threaded
event model runs after the handler); finally clear the buffer. -/
def handleCompositionEnd (content : List Char) (now : Nat) (data : List Char)
    (s : EngineState) : EngineState :=
  let s1 := { s with isComposing := false }
  let s2 := if data ≠ [] ∧ jsTrim data ≠ [] then processInput content now data s1 else s1
  { s2 with compositionBuffer := "" }

/-- The `insertText` branch of `handleBeforeInput`: ignored during an
open composition; `'\r'` as the whole data is turned into the empty
string and dropped; a data string equal to a single space, newline or
tab is dropped unless it equals the reference character at the cursor;
anything else is forwarded to `processInput`. -/
def handleInsertText (content : List Char) (now : Nat) (data : List Char)
    (s : EngineState) : EngineState :=
  if s.isComposing then s
  else if data = [] then s
  else
    let d := if data = ['\r'] then [] else data
    if d = [] then s
    else if d = [' '] ∧ content[s.currentPosition]? ≠ some ' ' then s
    else if d = ['\n'] ∧ content[s.currentPosition]? ≠ some '\n' then s
    else if d = ['\t'] ∧ content[s.currentPosition]? ≠ some '\t' then s
    else processInput content now d s

/-- The raw input events consumed by the component's handlers; each
event that can reach `processInput` carries the reading of `Date.now()`
at the moment it is handled.  `click i` carries the `data-index` of the
clicked character span; the spans rendered by the component carry
indexes `0 .. L-1` only. -/
inductive Event where
  | compStart
  | compUpdate (data : String)
  | compEnd (now : Nat) (data : List Char)
  | insertText (now : Nat) (data : List Char)
  | insertFromPaste (now : Nat) (data : List Char)
  | insertParagraph (now : Nat)
  | inputFallback (now : Nat) (text : List Char)
  | keyDown (k : Key)
  | click (i : Nat)
  deriving Repr, DecidableEq

/-- One step of the event-driven engine: dispatch an event to the
handler the component registers for it.  `insertFromPaste` and the
`onInput` fallback forward nonempty text to `processInput` unless a
composition is open; `insertParagraph` forwards a newline only when the
reference holds a newline at the cursor; `click` seeks the cursor to the
clicked index. -/
def step (content : List Char) (s : EngineState) : Event → EngineState
  | .compStart => handleCompositionStart s
  | .compUpdate d => handleCompositionUpdate d s
  | .compEnd now d => handleCompositionEnd content now d s
  | .insertText now d => handleInsertText content now d s
  | .insertFromPaste now d =>
      if s.isComposing then s
      else if d ≠ [] then processInput content now d s else s
  | .insertParagraph now =>
      if s.isComposing then s
      else if content[s.currentPosition]? = some '\n' then processInput content now ['\n'] s
      else s
  | .inputFallback now t =>
      if s.isComposing then s
      else if t ≠ [] then processInput content now t s else s
  | .keyDown k => handleKeyDown content k s
  | .click i => { s with currentPosition := i }

/-- JS `Math.round` on a finite number: round half toward positive
infinity, i.e. the floor of `x + 1/2`. -/
def jsRound (q : ℚ) : ℤ := ⌊q + 1 / 2⌋

/-- The error count sampled by the metrics interval:
`Array.from(typedMap.entries()).filter(([idx, ch]) => ch !== content[idx]).length`
(a stored character at an out-of-range index differs from `undefined`
and therefore counts as an error, which `content[idx]? = none` models). -/
def errorCount (content : List Char) (m : TMap) : Nat :=
  m.countP fun q => decide (content[q.1]? ≠ some q.2)

/-- The accuracy sampled by the metrics interval:
`round((totalTyped - errorCount) / totalTyped * 100)` when the map is
nonempty; when `totalTyped = 0` the displayed value keeps its baseline
default of 100. -/
def accuracyPercent (content : List Char) (m : TMap) : ℤ :=
  if m.length = 0 then 100
  else jsRound ((((m.length : ℤ) - (errorCount content m : ℤ) : ℤ) : ℚ) / (m.length : ℚ) * 100)

/-- The progress expression rendered by the component:
`Math.round((typedMap.size / content.length) * 100)`.  For a zero-length
reference the JS division yields `NaN` (or `Infinity`), which `Math.round`
propagates; `none` models that non-finite outcome. -/
def progressPercent (content : List Char) (m : TMap) : Option ℤ :=
  if content.length = 0 then none
  else some (jsRound ((m.length : ℚ) / (content.length : ℚ) * 100))

/-- The events the claims call input events: direct character insertion,
paste, paragraph insertion, the `onInput` fallback, and keyboard edits.
Composition bookkeeping events and pointer clicks are not input
events. -/
def IsDirectInputEvent : Event → Prop
  | .insertText _ _ => True
  | .insertFromPaste _ _ => True
  | .insertParagraph _ => True
  | .inputFallback _ _ => True
  | .keyDown _ => True
  | _ => False

/-- The commit-relevant fields of the state: cursor, map and session
clock. -/
def commitFields (s : EngineState) : Nat × TMap × Bool × Nat :=
  (s.currentPosition, s.typedMap, s.isStarted, s.startTime)

/-- An event the DOM can actually deliver: the `data-index` attribute of
a clicked character span is one of the rendered indexes `0 .. L-1`. -/
def ValidEvent (L : Nat) : Event → Prop
  | .click i => i < L
  | _ => True

/-- A sequence of `processInput` calls (each with its `Date.now()`
reading) applied to the initial state: the states reachable purely by
forward commits. -/
def applyCommits (content : List Char) (ins : List (Nat × List Char)) : EngineState :=
  ins.foldl (fun st p => processInput content p.1 p.2 st) init

/-- Reachability purely by forward commits from the initial state. -/
def ForwardReachable (content : List Char) (s : EngineState) : Prop :=
  ∃ ins : List (Nat × List Char), s = applyCommits content ins

/-- Sequential recording of a run of characters starting at a position:
the shape `commitLoop` produces on input that commits every
character. -/
def setSeq (m : TMap) (p : Nat) : List Char → TMap
  | [] => m
  | c :: rest => setSeq (TMap.set m p c) (p + 1) rest

/-- The map holding exactly the characters of a list, keyed by their
positions starting at `p`. -/
def enumFromT : Nat → List Char → TMap
  | _, [] => []
  | p, c :: rest => (p, c) :: enumFromT (p + 1) rest

/-- The invariant of states reached purely by forward commits: no open
composition, and the map holds an entry exactly at the positions below
the cursor. -/
def EngineInv (s : EngineState) : Prop :=
  s.isComposing = false ∧
    ∀ k, (TMap.lookup s.typedMap k).isSome ↔ k < s.currentPosition

theorem lookup_set_self (m : TMap) (k : Nat) (v : Char) :
    TMap.lookup (TMap.set m k v) k = some v := by
  induction m with
  | nil => simp [TMap.set, TMap.lookup]
  | cons q rest ih =>
    by_cases h : q.1 = k
    · simp [TMap.set, h, TMap.lookup]
    · simp [TMap.set, h, TMap.lookup, ih]

theorem lookup_set_ne (m : TMap) {k k' : Nat} (v : Char) (h : k' ≠ k) :
    TMap.lookup (TMap.set m k v) k' = TMap.lookup m k' := by
  induction m with
  | nil => simp [TMap.set, TMap.lookup, Ne.symm h]
  | cons q rest ih =>
    by_cases hq : q.1 = k
    · subst hq
      simp [TMap.set, TMap.lookup, Ne.symm h]
    · simp [TMap.set, hq, TMap.lookup, ih]

theorem lookup_eq_none_iff (m : TMap) (k : Nat) :
    TMap.lookup m k = none ↔ ∀ q ∈ m, q.1 ≠ k := by
  induction m with
  | nil => simp [TMap.lookup]
  | cons q rest ih =>
    by_cases h : q.1 = k
    · simp [TMap.lookup, h]
    · simp [TMap.lookup, h, ih]

theorem del_set_of_fresh (m : TMap) (k : Nat) (v : Char)
    (h : TMap.lookup m k = none) : TMap.del (TMap.set m k v) k = m := by
  induction m with
  | nil => simp [TMap.set, TMap.del]
  | cons q rest ih =>
    have hq : q.1 ≠ k := (lookup_eq_none_iff _ _).1 h q (by simp)
    have hrest : TMap.lookup rest k = none := by
      rw [lookup_eq_none_iff] at h ⊢
      exact fun p hp => h p (by simp [hp])
    simp [TMap.set, hq, TMap.del, ih hrest]

theorem set_append_of_fresh (m : TMap) (k : Nat) (v : Char)
    (h : ∀ q ∈ m, q.1 ≠ k) : TMap.set m k v = m ++ [(k, v)] := by
  induction m with
  | nil => simp [TMap.set]
  | cons q rest ih =>
    have hq : q.1 ≠ k := h q (by simp)
    simp [TMap.set, hq, ih fun p hp => h p (by simp [hp])]

theorem commitLoop_single (content : List Char) (c : Char) (pos : Nat) (m : TMap) :
    commitLoop content [c] pos m =
      if content.length ≤ pos then (pos, m)
      else if c = '\r' then (pos, m)
      else if (c = ' ' ∨ c = '\n' ∨ c = '\t') ∧ content[pos]? ≠ some c then (pos, m)
      else (pos + 1, TMap.set m pos c) := by
  simp only [commitLoop]

theorem commitLoop_pos_le (content : List Char) (t : List Char) :
    ∀ (pos : Nat) (m : TMap), pos ≤ content.length →
      (commitLoop content t pos m).1 ≤ content.length := by
  induction t with
  | nil => intro pos m h; simpa [commitLoop] using h
  | cons c rest ih =>
    intro pos m h
    by_cases h1 : content.length ≤ pos
    · simpa [commitLoop, h1] using h
    · by_cases h2 : c = '\r'
      · simpa [commitLoop, h1, h2] using ih pos m h
      · by_cases h3 : (c = ' ' ∨ c = '\n' ∨ c = '\t') ∧ content[pos]? ≠ some c
        · simpa [commitLoop, h1, h2, h3] using ih pos m h
        · simpa [commitLoop, h1, h2, h3] using ih (pos + 1) (TMap.set m pos c) (by omega)

theorem commitLoop_dom (content : List Char) (t : List Char) :
    ∀ (pos : Nat) (m : TMap),
      (∀ k, (TMap.lookup m k).isSome ↔ k < pos) →
      ∀ k, (TMap.lookup (commitLoop content t pos m).2 k).isSome ↔
        k < (commitLoop content t pos m).1 := by
  induction t with
  | nil => intro pos m h k; simpa [commitLoop] using h k
  | cons c rest ih =>
    intro pos m h k
    by_cases h1 : content.length ≤ pos
    · simpa [commitLoop, h1] using h k
    · by_cases h2 : c = '\r'
      · simpa [commitLoop, h1, h2] using ih pos m h k
      · by_cases h3 : (c = ' ' ∨ c = '\n' ∨ c = '\t') ∧ content[pos]? ≠ some c
        · simpa [commitLoop, h1, h2, h3] using ih pos m h k
        · have hnext : ∀ k', (TMap.lookup (TMap.set m pos c) k').isSome ↔ k' < pos + 1 := by
            intro k'
            by_cases hk : k' = pos
            · subst hk; simp [lookup_set_self]
            · rw [lookup_set_ne m c hk, h k']
              constructor <;> omega
          simpa [commitLoop, h1, h2, h3] using ih (pos + 1) (TMap.set m pos c) hnext k

theorem processInput_eq (content : List Char) (now : Nat) (text : List Char)
    (s : EngineState) (h : text ≠ []) :
    processInput content now text s =
      { s with isStarted := true,
               startTime := if s.isStarted then s.startTime else now,
               currentPosition := (commitLoop content text s.currentPosition s.typedMap).1,
               typedMap := (commitLoop content text s.currentPosition s.typedMap).2 } := by
  cases s with
  | mk pos m st t0 comp buf => by_cases hst : st <;> simp [processInput, h, hst]

theorem inv_processInput (content : List Char) (now : Nat) (text : List Char)
    (s : EngineState) (h : EngineInv s) :
    EngineInv (processInput content now text s) := by
  by_cases ht : text = []
  · simpa [processInput, ht] using h
  · rw [processInput_eq _ _ _ _ ht]
    exact ⟨h.1, commitLoop_dom content text s.currentPosition s.typedMap h.2⟩

theorem inv_foldl (content : List Char) (ins : List (Nat × List Char)) :
    ∀ s : EngineState, EngineInv s →
      EngineInv (ins.foldl (fun st p => processInput content p.1 p.2 st) s) := by
  induction ins with
  | nil => intro s h; simpa using h
  | cons p rest ih =>
    intro s h
    simpa using ih _ (inv_processInput content p.1 p.2 s h)

theorem inv_reachable (content : List Char) (s : EngineState)
    (h : ForwardReachable content s) : EngineInv s := by
  obtain ⟨ins, rfl⟩ := h
  exact inv_foldl content ins init ⟨rfl, by intro k; simp [init, TMap.lookup]⟩

/-- Claim C1: for a cursor position `p < L`, a committed space, newline
or tab that differs from the reference character at `p` is silently
dropped — the map and the cursor are unchanged — while a space, newline
or tab that equals the reference character is recorded at `p` and
advances the cursor. -/
theorem c1_whitespace_guard (content : List Char) (now : Nat) (c : Char)
    (s : EngineState)
    (hws : c = ' ' ∨ c = '\n' ∨ c = '\t')
    (hp : s.currentPosition < content.length) :
    (content[s.currentPosition]? ≠ some c →
        (processInput content now [c] s).typedMap = s.typedMap ∧
        (processInput content now [c] s).currentPosition = s.currentPosition) ∧
    (content[s.currentPosition]? = some c →
        TMap.lookup (processInput content now [c] s).typedMap s.currentPosition = some c ∧
        (processInput content now [c] s).currentPosition = s.currentPosition + 1) := by
  have hcr : c ≠ '\r' := by rcases hws with h | h | h <;> simp [h]
  rw [processInput_eq _ _ _ _ (by simp), commitLoop_single]
  constructor
  · intro hne
    simp [Nat.not_le.2 hp, hcr, hws, hne]
  · intro heq
    simp [Nat.not_le.2 hp, hcr, heq, lookup_set_self]

theorem c1_whitespace_guard_w :
    ((processInput ['a', ' '] 3 [' '] init).typedMap = init.typedMap ∧
      (processInput ['a', ' '] 3 [' '] init).currentPosition = init.currentPosition) ∧
    (TMap.lookup (processInput [' ', 'b'] 3 [' '] init).typedMap 0 = some ' ' ∧
      (processInput [' ', 'b'] 3 [' '] init).currentPosition = 1) :=
  ⟨(c1_whitespace_guard ['a', ' '] 3 ' ' init (by simp) (by simp [init])).1 (by decide),
   (c1_whitespace_guard [' ', 'b'] 3 ' ' init (by simp) (by simp [init])).2 (by decide)⟩

/-- Claim C2 counterexample: with reference `"a b"` and the cursor at
position 1 (a space in the reference), committing `"x"` does NOT leave
the map and the cursor unchanged — `'x'` is not a whitespace character,
so the guard does not apply and the mismatch is recorded. -/
theorem c2_counterexample :
    ¬((processInput ['a', ' ', 'b'] 7 ['x']
          ⟨1, [(0, 'a')], true, 0, false, ""⟩).typedMap
            = (⟨1, [(0, 'a')], true, 0, false, ""⟩ : EngineState).typedMap ∧
      (processInput ['a', ' ', 'b'] 7 ['x']
          ⟨1, [(0, 'a')], true, 0, false, ""⟩).currentPosition
            = (⟨1, [(0, 'a')], true, 0, false, ""⟩ : EngineState).currentPosition) := by
  decide

/-- Claim C2 as amended: given reference `"a b"`, committing `"x"` at
position 1 (a space in the reference) is accepted as a recorded
mismatch: the map gains the entry `1 ↦ 'x'` and the cursor advances
to 2.  The whitespace guard constrains whitespace input characters
only. -/
theorem c2_amended (now : Nat) (s : EngineState)
    (hp : s.currentPosition = 1) :
    TMap.lookup (processInput ['a', ' ', 'b'] now ['x'] s).typedMap 1 = some 'x' ∧
    (processInput ['a', ' ', 'b'] now ['x'] s).currentPosition = 2 := by
  rw [processInput_eq _ _ _ _ (by simp), commitLoop_single]
  simp [hp, lookup_set_self]

theorem c2_amended_w :
    TMap.lookup (processInput ['a', ' ', 'b'] 7 ['x']
        ⟨1, [(0, 'a')], true, 0, false, ""⟩).typedMap 1 = some 'x' ∧
    (processInput ['a', ' ', 'b'] 7 ['x']
        ⟨1, [(0, 'a')], true, 0, false, ""⟩).currentPosition = 2 :=
  c2_amended 7 ⟨1, [(0, 'a')], true, 0, false, ""⟩ rfl

/-- Claim C3: at a cursor position `p < L`, committing a non-whitespace
character always succeeds whether or not it matches the reference: the
map entry at `p` becomes the committed character and the cursor advances
to `p + 1`.  The carriage return `'\r'` is itself a whitespace character
(the engine maps it to the empty string and drops it before the guard),
so it lies outside the claim's "non-whitespace" scope and is excluded
alongside space, newline and tab. -/
theorem c3_nonwhitespace_commit (content : List Char) (now : Nat) (c : Char)
    (s : EngineState)
    (hnw : ¬(c = ' ' ∨ c = '\n' ∨ c = '\t')) (hcr : c ≠ '\r')
    (hp : s.currentPosition < content.length) :
    (processInput content now [c] s).typedMap
        = TMap.set s.typedMap s.currentPosition c ∧
    TMap.lookup (processInput content now [c] s).typedMap s.currentPosition = some c ∧
    (processInput content now [c] s).currentPosition = s.currentPosition + 1 := by
  rw [processInput_eq _ _ _ _ (by simp), commitLoop_single]
  simp [Nat.not_le.2 hp, hcr, hnw, lookup_set_self]

theorem c3_nonwhitespace_commit_w :
    (processInput ['a'] 3 ['x'] init).typedMap = TMap.set init.typedMap 0 'x' ∧
    TMap.lookup (processInput ['a'] 3 ['x'] init).typedMap 0 = some 'x' ∧
    (processInput ['a'] 3 ['x'] init).currentPosition = 1 :=
  c3_nonwhitespace_commit ['a'] 3 'x' init (by decide) (by decide) (by simp [init])

/-- Claim C4 counterexample: feeding the single mismatched whitespace
character tab to `processInput` over the reference `"a"` commits
nothing — the map and the cursor are unchanged — yet the session is
marked started and the clock records the current time, contradicting
the claim that the clock remains unset when no character is
committed. -/
theorem c4_counterexample :
    (processInput ['a'] 42 ['\t'] init).typedMap = [] ∧
    (processInput ['a'] 42 ['\t'] init).currentPosition = 0 ∧
    ¬((processInput ['a'] 42 ['\t'] init).isStarted = false) ∧
    (processInput ['a'] 42 ['\t'] init).startTime = 42 := by
  decide

/-- Claim C4 as amended: the SessionClock start time is recorded at the
first nonempty input delivered to the commit path — the first commit
attempt — whether or not any character is successfully committed; once
the session is started, the start time never changes; empty input
leaves the state untouched. -/
theorem c4_amended (content : List Char) (now : Nat) (text : List Char)
    (s : EngineState) :
    (text ≠ [] → (processInput content now text s).isStarted = true) ∧
    (text ≠ [] → s.isStarted = false →
        (processInput content now text s).startTime = now) ∧
    (s.isStarted = true →
        (processInput content now text s).startTime = s.startTime ∧
        (processInput content now text s).isStarted = true) ∧
    processInput content now [] s = s := by
  refine ⟨fun h => ?_, fun h hst => ?_, fun hst => ?_, by simp [processInput]⟩
  · rw [processInput_eq _ _ _ _ h]
  · rw [processInput_eq _ _ _ _ h]; simp [hst]
  · by_cases h : text = []
    · simp [processInput, h, hst]
    · rw [processInput_eq _ _ _ _ h]; simp [hst]

theorem c4_amended_w :
    (processInput ['a'] 42 ['\t'] init).isStarted = true ∧
    (processInput ['a'] 42 ['\t'] init).startTime = 42 ∧
    (processInput ['a'] 42 ['\t'] ⟨0, [], true, 7, false, ""⟩).startTime = 7 ∧
    processInput ['a'] 42 [] init = init :=
  ⟨(c4_amended ['a'] 42 ['\t'] init).1 (by decide),
   (c4_amended ['a'] 42 ['\t'] init).2.1 (by decide) rfl,
   ((c4_amended ['a'] 42 ['\t'] ⟨0, [], true, 7, false, ""⟩).2.2.1 rfl).1,
   (c4_amended ['a'] 42 [] init).2.2.2⟩

/-- Claim C9 (code bug): for a zero-length reference text the rendered
progress expression divides by zero — JS computes
`Math.round((0 / 0) * 100) = NaN` (modelled by `none`) and displays
"NaN%" rather than the baseline 0% the specification promises — even
though the commit operation itself leaves the map and the cursor
untouched. -/
theorem c9_progress_nan :
    (processInput [] 5 ['x'] init).typedMap = [] ∧
    (processInput [] 5 ['x'] init).currentPosition = 0 ∧
    progressPercent [] (processInput [] 5 ['x'] init).typedMap = none ∧
    progressPercent [] [] ≠ some 0 := by
  decide

/-- Claim C10: a finalized composition result consisting only of
whitespace characters (for example a single space) is discarded by the
`trim` guard of `handleCompositionEnd` without reaching the commit
path: the map, the cursor and the session clock are unchanged, even
when the whitespace matches the reference text at the cursor. -/
theorem c10_composition_whitespace_discarded (content : List Char) (now : Nat)
    (data : List Char) (s : EngineState)
    (hall : ∀ c ∈ data, isTrimWhite c = true) :
    (handleCompositionEnd content now data s).typedMap = s.typedMap ∧
    (handleCompositionEnd content now data s).currentPosition = s.currentPosition ∧
    (handleCompositionEnd content now data s).isStarted = s.isStarted ∧
    (handleCompositionEnd content now data s).startTime = s.startTime := by
  have htrim : jsTrim data = [] := by
    unfold jsTrim
    rw [List.dropWhile_eq_nil_iff.2 hall]
    simp
  simp [handleCompositionEnd, htrim]

theorem length_enumFromT (l : List Char) :
    ∀ p : Nat, (enumFromT p l).length = l.length := by
  induction l with
  | nil => intro p; simp [enumFromT]
  | cons c rest ih => intro p; simp [enumFromT, ih]

theorem commitLoop_verbatim (suf : List Char) :
    ∀ (pre : List Char) (m : TMap), '\r' ∉ suf →
      commitLoop (pre ++ suf) suf pre.length m
        = (pre.length + suf.length, setSeq m pre.length suf) := by
  induction suf with
  | nil => intro pre m _; simp [commitLoop, setSeq]
  | cons c rest ih =>
    intro pre m h
    have hcr : c ≠ '\r' := fun hc => h (by simp [hc])
    have hrest : '\r' ∉ rest := fun hr => h (by simp [hr])
    have hlen : ¬((pre ++ c :: rest).length ≤ pre.length) := by
      simp only [List.length_append, List.length_cons]
      omega
    have hget : (pre ++ c :: rest)[pre.length]? = some c := by
      rw [List.getElem?_append_right (le_refl pre.length)]
      simp
    simp only [commitLoop, if_neg hlen, if_neg hcr]
    rw [if_neg (by simp [hget])]
    have ihx := ih (pre ++ [c]) (TMap.set m pre.length c) hrest
    simp only [List.append_assoc, List.singleton_append, List.length_append,
      List.length_singleton] at ihx
    rw [ihx]
    simp only [setSeq, List.length_cons, Prod.mk.injEq]
    exact ⟨by omega, trivial⟩

theorem enumFromT_entries (l : List Char) :
    ∀ (pre : List Char) (q : Nat × Char), q ∈ enumFromT pre.length l →
      (pre ++ l)[q.1]? = some q.2 := by
  induction l with
  | nil => intro pre q hq; simp [enumFromT] at hq
  | cons c rest ih =>
    intro pre q hq
    simp only [enumFromT, List.mem_cons] at hq
    rcases hq with rfl | hq
    · show (pre ++ c :: rest)[pre.length]? = some c
      rw [List.getElem?_append_right (le_refl pre.length)]
      simp
    · have hq' : q ∈ enumFromT (pre ++ [c]).length rest := by simpa using hq
      have hres := ih (pre ++ [c]) q hq'
      simpa using hres

theorem setSeq_enum (l : List Char) :
    ∀ (m : TMap) (p : Nat), (∀ q ∈ m, q.1 < p) →
      setSeq m p l = m ++ enumFromT p l := by
  induction l with
  | nil => intro m p _; simp [setSeq, enumFromT]
  | cons c rest ih =>
    intro m p h
    have hfresh : ∀ q ∈ m, q.1 ≠ p := fun q hq => Nat.ne_of_lt (h q hq)
    have hset : TMap.set m p c = m ++ [(p, c)] := set_append_of_fresh m p c hfresh
    have hall : ∀ q ∈ m ++ [(p, c)], q.1 < p + 1 := by
      intro q hq
      rcases List.mem_append.1 hq with h1 | h1
      · exact Nat.lt_succ_of_lt (h q h1)
      · rw [List.mem_singleton] at h1
        rw [h1]
        exact Nat.lt_succ_self p
    simp only [setSeq, hset, enumFromT]
    rw [ih (m ++ [(p, c)]) (p + 1) hall]
    simp

theorem errorCount_enum (content : List Char) :
    errorCount content (enumFromT 0 content) = 0 := by
  unfold errorCount
  rw [List.countP_eq_zero]
  intro q hq
  have h := enumFromT_entries content [] q (by simpa using hq)
  simp only [List.nil_append] at h
  simp [h]

theorem jsRound_intCast (n : ℤ) : jsRound (n : ℚ) = n := by
  unfold jsRound
  rw [Int.floor_eq_iff]
  constructor <;> [linarith; linarith]

theorem accuracyPercent_perfect (content : List Char) (m : TMap)
    (hlen : m.length = content.length) (herr : errorCount content m = 0)
    (hL : content.length ≠ 0) : accuracyPercent content m = 100 := by
  unfold accuracyPercent
  rw [hlen, herr, if_neg hL]
  have hQ : (content.length : ℚ) ≠ 0 := Nat.cast_ne_zero.2 hL
  have hq : ((((content.length : ℤ) - ((0 : ℕ) : ℤ) : ℤ)) : ℚ) / (content.length : ℚ) * 100
      = ((100 : ℤ) : ℚ) := by
    push_cast
    field_simp
  rw [hq, jsRound_intCast]

theorem progressPercent_full (content : List Char) (m : TMap)
    (hlen : m.length = content.length) (hL : content.length ≠ 0) :
    progressPercent content m = some 100 := by
  unfold progressPercent
  rw [hlen, if_neg hL]
  have hQ : (content.length : ℚ) ≠ 0 := Nat.cast_ne_zero.2 hL
  have hq : (content.length : ℚ) / (content.length : ℚ) * 100 = ((100 : ℤ) : ℚ) := by
    field_simp
  rw [hq, jsRound_intCast]

/-- Claim C8 counterexample: for the reference text consisting of the
single carriage return, committing it verbatim commits nothing — the
engine drops `'\r'` — so the progress stays at 0 percent rather than
reaching 100. -/
theorem c8_counterexample :
    (processInput ['\r'] 0 ['\r'] init).typedMap = [] ∧
    progressPercent ['\r'] (processInput ['\r'] 0 ['\r'] init).typedMap ≠ some 100 := by
  refine ⟨by decide, ?_⟩
  have hmap : (processInput ['\r'] 0 ['\r'] init).typedMap = [] := by decide
  rw [hmap]
  unfold progressPercent
  rw [if_neg (by decide : ¬(['\r'] : List Char).length = 0)]
  have hq : ((([] : TMap).length : ℚ)) / (((['\r'] : List Char).length : ℚ)) * 100
      = ((0 : ℤ) : ℚ) := by simp
  rw [hq, jsRound_intCast]
  decide

/-- Claim C8 as amended: for every nonempty reference text containing no
carriage return, committing the reference verbatim from cursor 0 yields
`errorCount = 0`, `accuracyPercent = 100` and `progressPercent = 100`.
A reference containing `'\r'` is excluded because the engine drops
carriage returns, and an empty reference because its progress expression
divides by zero. -/
theorem c8_amended (content : List Char) (now : Nat)
    (h1 : content ≠ []) (h2 : '\r' ∉ content) :
    errorCount content (processInput content now content init).typedMap = 0 ∧
    accuracyPercent content (processInput content now content init).typedMap = 100 ∧
    progressPercent content (processInput content now content init).typedMap = some 100 := by
  have hmap : (processInput content now content init).typedMap = enumFromT 0 content := by
    rw [processInput_eq _ _ _ _ h1]
    have hv := commitLoop_verbatim content [] [] h2
    simp only [List.nil_append, List.length_nil] at hv
    simp only [init]
    rw [hv]
    rw [show setSeq [] 0 content = [] ++ enumFromT 0 content from
      setSeq_enum content [] 0 (by simp)]
    simp
  have hL : content.length ≠ 0 := fun hc => h1 (List.length_eq_zero.1 hc)
  rw [hmap]
  exact ⟨errorCount_enum content,
    accuracyPercent_perfect content _ (length_enumFromT content 0) (errorCount_enum content) hL,
    progressPercent_full content _ (length_enumFromT content 0) hL⟩

theorem c8_amended_w :
    (['h', 'i'] : List Char) ≠ [] ∧ '\r' ∉ (['h', 'i'] : List Char) ∧
    (errorCount ['h', 'i'] (processInput ['h', 'i'] 4 ['h', 'i'] init).typedMap = 0 ∧
      accuracyPercent ['h', 'i'] (processInput ['h', 'i'] 4 ['h', 'i'] init).typedMap = 100 ∧
      progressPercent ['h', 'i'] (processInput ['h', 'i'] 4 ['h', 'i'] init).typedMap
        = some 100) :=
  ⟨by decide, by decide, c8_amended ['h', 'i'] 4 (by decide) (by decide)⟩

/-- Claim C5: while a composition is open, no input event — direct
character insertion, paste, paragraph insertion, the input fallback, or
a keyboard edit — modifies the map or the cursor; and the finalized
result delivered at composition-end (when nonempty and not all
whitespace) drives the commit-relevant state exactly as the paste path
does: both feed the text to the same per-character commit loop. -/
theorem c5_composition_isolation (content : List Char) (s : EngineState) :
    (∀ e : Event, IsDirectInputEvent e → s.isComposing = true →
        (step content s e).typedMap = s.typedMap ∧
        (step content s e).currentPosition = s.currentPosition) ∧
    (∀ (now : Nat) (d : List Char), d ≠ [] → jsTrim d ≠ [] →
        commitFields (step content s (.compEnd now d)) =
          commitFields (step content { s with isComposing := false }
            (.insertFromPaste now d))) := by
  constructor
  · intro e he hc
    cases e with
    | compStart => simp [step, handleCompositionStart]
    | compUpdate d => simp [step, handleCompositionUpdate]
    | compEnd now d => simp [IsDirectInputEvent] at he
    | insertText now d => simp [step, handleInsertText, hc]
    | insertFromPaste now d => simp [step, hc]
    | insertParagraph now => simp [step, hc]
    | inputFallback now t => simp [step, hc]
    | keyDown k => simp [step, handleKeyDown, hc]
    | click i => simp [IsDirectInputEvent] at he
  · intro now d hd htrim
    simp [step, handleCompositionEnd, hd, htrim, commitFields]

theorem c5_composition_isolation_w :
    ((step ['a'] ⟨0, [], false, 0, true, "q"⟩ (.insertText 1 ['q'])).typedMap
        = (⟨0, [], false, 0, true, "q"⟩ : EngineState).typedMap ∧
      (step ['a'] ⟨0, [], false, 0, true, "q"⟩ (.insertText 1 ['q'])).currentPosition
        = (⟨0, [], false, 0, true, "q"⟩ : EngineState).currentPosition) ∧
    commitFields (step ['a'] ⟨0, [], false, 0, true, "q"⟩ (.compEnd 2 ['b'])) =
      commitFields (step ['a']
        { (⟨0, [], false, 0, true, "q"⟩ : EngineState) with isComposing := false }
        (.insertFromPaste 2 ['b'])) :=
  ⟨(c5_composition_isolation ['a'] ⟨0, [], false, 0, true, "q"⟩).1
      (.insertText 1 ['q']) (by simp [IsDirectInputEvent]) rfl,
   (c5_composition_isolation ['a'] ⟨0, [], false, 0, true, "q"⟩).2
      2 ['b'] (by decide) (by decide)⟩

/-- Claim C6: in any state reached purely by forward commits, a
backspace immediately after a successful single-character commit
restores the cursor to its pre-commit value and removes exactly the map
entry just added, leaving the rest of the map unchanged; and backspace
is a no-op at cursor position 0. -/
theorem c6_backspace_inverse (content : List Char) (s : EngineState)
    (h : ForwardReachable content s) (now : Nat) (c : Char)
    (hsucc : (processInput content now [c] s).currentPosition = s.currentPosition + 1) :
    (handleKeyDown content .backspace (processInput content now [c] s)).currentPosition
        = s.currentPosition ∧
    (handleKeyDown content .backspace (processInput content now [c] s)).typedMap
        = s.typedMap ∧
    (s.currentPosition = 0 → handleKeyDown content .backspace s = s) := by
  have hinv := inv_reachable content s h
  have hcomp : s.isComposing = false := hinv.1
  have hfresh : TMap.lookup s.typedMap s.currentPosition = none := by
    cases hl : TMap.lookup s.typedMap s.currentPosition with
    | none => rfl
    | some v =>
        have hlt := (hinv.2 s.currentPosition).1 (by simp [hl])
        omega
  rw [processInput_eq _ _ _ _ (by simp), commitLoop_single] at hsucc ⊢
  by_cases h1 : content.length ≤ s.currentPosition
  · simp [h1] at hsucc
  · by_cases h2 : c = '\r'
    · simp [h1, h2] at hsucc
    · by_cases h3 : (c = ' ' ∨ c = '\n' ∨ c = '\t') ∧
          content[s.currentPosition]? ≠ some c
      · simp [h1, h2, h3] at hsucc
      · simp only [if_neg h1, if_neg h2, if_neg h3]
        refine ⟨?_, ?_, fun h0 => by simp [handleKeyDown, hcomp, h0]⟩
        · simp [handleKeyDown, hcomp]
        · simp [handleKeyDown, hcomp, del_set_of_fresh _ _ _ hfresh]

theorem c6_backspace_inverse_w :
    (handleKeyDown ['a', 'b'] .backspace
        (processInput ['a', 'b'] 3 ['a'] init)).currentPosition
      = init.currentPosition ∧
    (handleKeyDown ['a', 'b'] .backspace
        (processInput ['a', 'b'] 3 ['a'] init)).typedMap = init.typedMap ∧
    handleKeyDown ['a', 'b'] .backspace init = init := by
  have h := c6_backspace_inverse ['a', 'b'] init ⟨[], rfl⟩ 3 'a' (by decide)
  exact ⟨h.1, h.2.1, h.2.2 rfl⟩

theorem processInput_pos_le (content : List Char) (now : Nat) (text : List Char)
    (s : EngineState) (hs : s.currentPosition ≤ content.length) :
    (processInput content now text s).currentPosition ≤ content.length := by
  by_cases ht : text = []
  · simpa [processInput, ht] using hs
  · rw [processInput_eq _ _ _ _ ht]
    simpa using commitLoop_pos_le content text s.currentPosition s.typedMap hs

theorem step_pos_le (content : List Char) (e : Event) (s : EngineState)
    (hv : ValidEvent content.length e) (hs : s.currentPosition ≤ content.length) :
    (step content s e).currentPosition ≤ content.length := by
  cases e with
  | compStart => simpa [step, handleCompositionStart] using hs
  | compUpdate d => simpa [step, handleCompositionUpdate] using hs
  | compEnd now d =>
      simp only [step, handleCompositionEnd]
      split_ifs with h
      · simpa using processInput_pos_le content now d _ (by simpa using hs)
      · simpa using hs
  | insertText now d =>
      simp only [step, handleInsertText]
      split_ifs <;> first
        | simpa using hs
        | simpa using processInput_pos_le content now _ _ hs
  | insertFromPaste now d =>
      simp only [step]
      split_ifs <;> first
        | simpa using hs
        | exact processInput_pos_le content now d s hs
  | insertParagraph now =>
      simp only [step]
      split_ifs <;> first
        | simpa using hs
        | exact processInput_pos_le content now _ s hs
  | inputFallback now t =>
      simp only [step]
      split_ifs <;> first
        | simpa using hs
        | exact processInput_pos_le content now t s hs
  | keyDown k =>
      simp only [step]
      unfold handleKeyDown
      by_cases hcp : s.isComposing = true
      · simpa [hcp] using hs
      · rw [if_neg hcp]
        cases k <;> dsimp only <;> (try split_ifs) <;> (try simp) <;> omega
  | click i =>
      have hi : i < content.length := hv
      simpa [step] using Nat.le_of_lt hi

/-- Claim C7: starting from cursor 0, after any sequence of events the
DOM can deliver — arrow steps, seeks by click or Home/End, commits,
backspace and delete — the cursor stays within the closed interval
`[0, L]` (a click always carries a rendered index `< L`). -/
theorem c7_cursor_bounded (content : List Char) (es : List Event)
    (hv : ∀ e ∈ es, ValidEvent content.length e) :
    0 ≤ (es.foldl (step content) init).currentPosition ∧
    (es.foldl (step content) init).currentPosition ≤ content.length := by
  refine ⟨Nat.zero_le _, ?_⟩
  have main : ∀ (l : List Event) (s : EngineState),
      (∀ e ∈ l, ValidEvent content.length e) →
      s.currentPosition ≤ content.length →
      (l.foldl (step content) s).currentPosition ≤ content.length := by
    intro l
    induction l with
    | nil => intro s _ hs; simpa using hs
    | cons e rest ih =>
        intro s hv' hs
        simp only [List.foldl_cons]
        exact ih _ (fun e' he' => hv' e' (by simp [he']))
          (step_pos_le content e s (hv' e (by simp)) hs)
  exact main es init hv (by simp [init])

theorem c7_cursor_bounded_w :
    0 ≤ (([Event.click 0, Event.keyDown .endKey].foldl
        (step ['a', 'b']) init)).currentPosition ∧
    (([Event.click 0, Event.keyDown .endKey].foldl
        (step ['a', 'b']) init)).currentPosition ≤ (['a', 'b'] : List Char).length :=
  c7_cursor_bounded ['a', 'b'] [.click 0, .keyDown .endKey] (by
    intro e he
    simp at he
    rcases he with rfl | rfl
    · show (0 : Nat) < (['a', 'b'] : List Char).length
      decide
    · exact trivial)

theorem c10_composition_whitespace_discarded_w :
    (handleCompositionEnd ['a', ' ', 'b'] 9 [' ', '\u3000']
        ⟨1, [(0, 'a')], true, 5, true, "x"⟩).typedMap = [(0, 'a')] ∧
    (handleCompositionEnd ['a', ' ', 'b'] 9 [' ', '\u3000']
        ⟨1, [(0, 'a')], true, 5, true, "x"⟩).currentPosition = 1 ∧
    (handleCompositionEnd ['a', ' ', 'b'] 9 [' ', '\u3000']
        ⟨1, [(0, 'a')], true, 5, true, "x"⟩).isStarted = true ∧
    (handleCompositionEnd ['a', ' ', 'b'] 9 [' ', '\u3000']
        ⟨1, [(0, 'a')], true, 5, true, "x"⟩).startTime = 5 :=
  c10_composition_whitespace_discarded ['a', ' ', 'b'] 9 [' ', '\u3000']
    ⟨1, [(0, 'a')], true, 5, true, "x"⟩ (by decide)

end Tollow
